import Mathlib

/-!
Verification of the cosmwasm interchange types (`src/types.rs`) and their
length-delimited tagged wire codec.

The Rust source declares the message types (`Params`, `BlockInfo`,
`MessageInfo`, `ContractInfo`, `Coin`, `Msg`/`CosmosMsg`, `SendMsg`,
`ContractMsg`, `OpaqueMsg`, `ContractResult`/`Result`, `Response`) via prost
derive attributes with their field numbers, and the accessors
`ContractResult::unwrap` and `ContractResult::is_err` plus the helper
constructors `mock_params` and `coin`.  The codec itself (the module behind
`crate::prost::{from_slice, to_vec}`) is not part of the source tree, so it
is modelled from the specification: a length-delimited tagged binary format
(key = field number * 8 + wire type, varint integers, length-prefixed
strings and nested messages), required fields checked for presence, unknown
field tags skipped in plain messages, unknown variant tags rejected in the
oneof wrappers, and last-one-wins for duplicated fields.
-/

namespace Cosmwasm

/-! ## Data model, translated from `src/types.rs` -/

/-- `Coin` from `src/types.rs`: denom (tag 1) and decimal-string amount (tag 2). -/
structure Coin where
  denom : String
  amount : String
deriving DecidableEq

/-- `BlockInfo` from `src/types.rs`: height (int64, tag 1), time (int64, tag 2),
chain_id (string, tag 3). -/
structure BlockInfo where
  height : Int
  time : Int
  chain_id : String
deriving DecidableEq

/-- `MessageInfo` from `src/types.rs`: signer (tag 1), repeated sent_funds (tag 2). -/
structure MessageInfo where
  signer : String
  sent_funds : List Coin
deriving DecidableEq

/-- `ContractInfo` from `src/types.rs`: address (tag 1), repeated balance (tag 2). -/
structure ContractInfo where
  address : String
  balance : List Coin
deriving DecidableEq

/-- `Params` from `src/types.rs`: required block (tag 1), message (tag 2),
contract (tag 3). -/
structure Params where
  block : BlockInfo
  message : MessageInfo
  contract : ContractInfo
deriving DecidableEq

/-- `SendMsg` from `src/types.rs`: from_address (tag 1), to_address (tag 2),
repeated amount (tag 3). -/
structure SendMsg where
  from_address : String
  to_address : String
  amount : List Coin
deriving DecidableEq

/-- `ContractMsg` from `src/types.rs`: contract_addr (tag 1), msg (tag 2). -/
structure ContractMsg where
  contract_addr : String
  msg : String
deriving DecidableEq

/-- `OpaqueMsg` from `src/types.rs`: data (tag 1). -/
structure OpaqueMsg where
  data : String
deriving DecidableEq

/-- `CosmosMsg` oneof from `src/types.rs`: Send (tag 1), Contract (tag 2),
Opaque (tag 3). -/
inductive CosmosMsg where
  | Send (m : SendMsg)
  | Contract (m : ContractMsg)
  | Opaque (m : OpaqueMsg)
deriving DecidableEq

/-- `Msg` from `src/types.rs`: wrapper holding an optional `CosmosMsg` oneof. -/
structure Msg where
  msg : Option CosmosMsg
deriving DecidableEq

/-- `Response` from `src/types.rs`: repeated messages (tag 1), optional log
(tag 2), optional data (tag 3). -/
structure Response where
  messages : List Msg
  log : Option String
  data : Option String
deriving DecidableEq

/-- `Result` oneof from `src/types.rs`: Ok carrying a `Response` (tag 1),
Err carrying a `String` (tag 2). -/
inductive Result where
  | Ok (r : Response)
  | Err (e : String)
deriving DecidableEq

/-- `ContractResult` from `src/types.rs`: wrapper holding an optional `Result`
oneof. -/
structure ContractResult where
  res : Option Result
deriving DecidableEq

/-! ## Accessors and helper constructors from `src/types.rs` -/

/-- `ContractResult::unwrap` from `src/types.rs`.  The Rust function panics
when the union is unset (`self.res.unwrap()`) and panics on the `Err` variant;
a panic is modelled as `none`, a normal return as `some`. -/
def ContractResult.unwrap (c : ContractResult) : Option Response :=
  match c.res with
  | none => none
  | some (Result.Err _) => none
  | some (Result.Ok r) => some r

/-- `ContractResult::is_err` from `src/types.rs`.  The Rust function panics
when the union is unset (`self.res.as_ref().unwrap()`); a panic is modelled as
`none`, a normal return as `some`. -/
def ContractResult.is_err (c : ContractResult) : Option Bool :=
  match c.res with
  | none => none
  | some (Result.Err _) => some true
  | some (Result.Ok _) => some false

/-- `coin` from `src/types.rs`: a one-element coin vector constructor. -/
def coin (amount : String) (denom : String) : List Coin :=
  [{ denom := denom, amount := amount }]

/-- `mock_params` from `src/types.rs`: a fixed test context around the given
signer, sent funds and balance. -/
def mock_params (signer : String) (sent : List Coin) (balance : List Coin) : Params :=
  { block := { height := 12345, time := 1571797419, chain_id := "cosmos-testnet-14002" }
    message := { signer := signer, sent_funds := sent }
    contract := { address := "cosmos2contract", balance := balance } }

/-! ## Wire codec

Modelled from the spec: the encode/decode engine behind
`crate::prost::{to_vec, from_slice}` is not present in the source tree, so it
is reconstructed from the specification of the wire format: a message is a
sequence of fields, each field a varint key (field number * 8 + wire type;
wire type 0 = varint, 2 = length-delimited), integers variable-length
encoded, strings and nested messages length-prefixed, repeated fields one
entry per element in order. -/

/-- Decode error kinds, as listed by the specification. -/
inductive DecodeError where
  | MissingField
  | Malformed
  | Truncated
  | UnknownVariant
  | InvalidEncoding
deriving DecidableEq

instance {ε α : Type} [DecidableEq ε] [DecidableEq α] : DecidableEq (Except ε α) := fun x y =>
  match x, y with
  | .error a, .error b =>
    if h : a = b then isTrue (by rw [h]) else isFalse (by simp [h])
  | .ok a, .ok b =>
    if h : a = b then isTrue (by rw [h]) else isFalse (by simp [h])
  | .error _, .ok _ => isFalse (by simp)
  | .ok _, .error _ => isFalse (by simp)

/-- Variable-length integer encoding, low 7 bits first, high bit marking a
continuation byte.  The first argument is fuel; `varintEncode` supplies
enough of it. -/
def varintEncodeAux : Nat → Nat → List Nat
  | 0, n => [n % 128]
  | fuel + 1, n => if n < 128 then [n] else (n % 128 + 128) :: varintEncodeAux fuel (n / 128)

/-- Variable-length integer encoding of `n`. -/
def varintEncode (n : Nat) : List Nat :=
  varintEncodeAux n n

/-- Variable-length integer decoding; returns the value and the remaining
bytes, or `Truncated` when the stream ends inside the integer. -/
def varintDecode : List Nat → Except DecodeError (Nat × List Nat)
  | [] => .error .Truncated
  | b :: rest =>
    if b < 128 then .ok (b, rest)
    else
      match varintDecode rest with
      | .ok (v, r) => .ok (b - 128 + 128 * v, r)
      | .error e => .error e

/-- A decoded field value: either a varint or a length-delimited payload. -/
inductive FieldVal where
  | varint (v : Nat)
  | bytes (payload : List Nat)
deriving DecidableEq

/-- Encode one field: varint key (field number * 8 + wire type) followed by
the value, length-prefixed when length-delimited. -/
def encodeField : Nat × FieldVal → List Nat
  | (t, .varint v) => varintEncode (t * 8) ++ varintEncode v
  | (t, .bytes p) => varintEncode (t * 8 + 2) ++ varintEncode p.length ++ p

/-- Encode a field sequence by concatenation. -/
def encodeFields (fs : List (Nat × FieldVal)) : List Nat :=
  (fs.map encodeField).flatten

/-- Read one field from the head of the stream: the key varint, then the
value according to the wire type.  Wire types other than 0 and 2 are not part
of this format and yield `Malformed`; a length prefix running past the end of
the stream yields `Truncated`. -/
def readField (input : List Nat) : Except DecodeError ((Nat × FieldVal) × List Nat) :=
  match varintDecode input with
  | .error e => .error e
  | .ok (key, rest) =>
    if key % 8 = 0 then
      match varintDecode rest with
      | .error e => .error e
      | .ok (v, rest2) => .ok ((key / 8, .varint v), rest2)
    else if key % 8 = 2 then
      match varintDecode rest with
      | .error e => .error e
      | .ok (len, rest2) =>
        if len ≤ rest2.length then .ok ((key / 8, .bytes (rest2.take len)), rest2.drop len)
        else .error .Truncated
    else .error .Malformed

/-- Parse a whole stream into its field sequence.  The first argument is
fuel; since every field occupies at least one byte, the stream length is
enough of it. -/
def parseFields : Nat → List Nat → Except DecodeError (List (Nat × FieldVal))
  | _, [] => .ok []
  | 0, _ :: _ => .error .Truncated
  | fuel + 1, b :: input =>
    match readField (b :: input) with
    | .error e => .error e
    | .ok (f, rest) =>
      match parseFields fuel rest with
      | .error e => .error e
      | .ok fs => .ok (f :: fs)

/-- Fold a decoding step over a parsed field sequence. -/
def foldFields (step : σ → Nat × FieldVal → Except DecodeError σ) :
    σ → List (Nat × FieldVal) → Except DecodeError σ
  | s, [] => .ok s
  | s, f :: fs =>
    match step s f with
    | .error e => .error e
    | .ok s2 => foldFields step s2 fs

/-! ### Round-trip of the building blocks -/

theorem varintDecode_varintEncodeAux (fuel : Nat) :
    ∀ n rest, n ≤ fuel → varintDecode (varintEncodeAux fuel n ++ rest) = .ok (n, rest) := by
  induction fuel with
  | zero =>
    intro n rest h
    obtain rfl : n = 0 := Nat.le_zero.mp h
    simp [varintEncodeAux, varintDecode]
  | succ fuel ih =>
    intro n rest h
    by_cases hn : n < 128
    · simp [varintEncodeAux, hn, varintDecode]
    · have hlt : n / 128 < n := Nat.div_lt_self (by omega) (by omega)
      have hdiv : n / 128 ≤ fuel := by omega
      simp only [varintEncodeAux, hn, if_false, List.cons_append, varintDecode,
        ih (n / 128) rest hdiv]
      have h1 : ¬ (n % 128 + 128 < 128) := by omega
      simp only [h1, if_false]
      have h2 : n % 128 + 128 - 128 + 128 * (n / 128) = n := by
        have := Nat.mod_add_div n 128
        omega
      rw [h2]

theorem varintDecode_varintEncode (n : Nat) (rest : List Nat) :
    varintDecode (varintEncode n ++ rest) = .ok (n, rest) :=
  varintDecode_varintEncodeAux n n rest (Nat.le_refl n)

theorem varintEncodeAux_ne_nil (fuel n : Nat) : varintEncodeAux fuel n ≠ [] := by
  cases fuel with
  | zero => simp [varintEncodeAux]
  | succ fuel =>
    by_cases hn : n < 128 <;> simp [varintEncodeAux, hn]

theorem encodeField_ne_nil (f : Nat × FieldVal) : encodeField f ≠ [] := by
  obtain ⟨t, v⟩ := f
  cases v <;> simp [encodeField, varintEncode, varintEncodeAux_ne_nil]

theorem readField_encodeField (f : Nat × FieldVal) (rest : List Nat) :
    readField (encodeField f ++ rest) = .ok (f, rest) := by
  obtain ⟨t, v⟩ := f
  cases v with
  | varint v =>
    have hmod : t * 8 % 8 = 0 := by omega
    have hdiv : t * 8 / 8 = t := by omega
    simp [encodeField, readField, varintDecode_varintEncode, hmod, hdiv]
  | bytes p =>
    have hmod : (t * 8 + 2) % 8 = 2 := by omega
    have hmod0 : ¬ (t * 8 + 2) % 8 = 0 := by omega
    have hdiv : (t * 8 + 2) / 8 = t := by omega
    simp only [encodeField, List.append_assoc, readField, varintDecode_varintEncode,
      hmod, hmod0, if_false, if_true]
    have hlen : p.length ≤ (p ++ rest).length := by simp
    simp [hlen, hdiv]

theorem parseFields_succ (fuel : Nat) (input : List Nat) (h : input ≠ []) :
    parseFields (fuel + 1) input =
      match readField input with
      | .error e => .error e
      | .ok (f, rest) =>
        match parseFields fuel rest with
        | .error e => .error e
        | .ok fs => .ok (f :: fs) := by
  cases input with
  | nil => exact absurd rfl h
  | cons b bs => rfl

theorem parseFields_zero (input : List Nat) (h : input ≠ []) :
    parseFields 0 input = .error .Truncated := by
  cases input with
  | nil => exact absurd rfl h
  | cons b bs => rfl

theorem parseFields_encodeFields (fs : List (Nat × FieldVal)) :
    ∀ fuel, fs.length ≤ fuel → parseFields fuel (encodeFields fs) = .ok fs := by
  induction fs with
  | nil =>
    intro fuel _
    cases fuel <;> simp [encodeFields, parseFields]
  | cons f tl ih =>
    intro fuel h
    cases fuel with
    | zero => simp at h
    | succ fuel =>
      have hne : encodeField f ≠ [] := encodeField_ne_nil f
      have hne2 : encodeField f ++ encodeFields tl ≠ [] := by
        intro hcontra
        exact hne (List.append_eq_nil.mp hcontra).1
      have hrep : encodeFields (f :: tl) = encodeField f ++ encodeFields tl := by
        simp [encodeFields]
      rw [hrep, parseFields_succ fuel (encodeField f ++ encodeFields tl) hne2,
        readField_encodeField f (encodeFields tl)]
      simp [ih fuel (by simpa using h)]

/-! ### Strings and 64-bit integers on the wire

Modelled from the spec: string payloads are length-prefixed; the byte-level
text encoding inside the payload is not pinned down by the spec, so it is
modelled as one varint per character code point, with an invalid code point
reported as `Malformed` (the spec's error kind for invalid primitive bytes).
64-bit integers travel as the varint of their 64-bit two's-complement
value. -/

/-- Encode a character sequence, one varint code point per character. -/
def encodeChars : List Char → List Nat
  | [] => []
  | c :: cs => varintEncode c.toNat ++ encodeChars cs

/-- Encode a string payload. -/
def strEncode (s : String) : List Nat :=
  encodeChars s.data

/-- Decode a character sequence from a whole payload.  The first argument is
fuel; each character takes at least one byte, so the payload length is enough
of it.  A truncated or invalid code point inside a payload is `Malformed`. -/
def decodeChars : Nat → List Nat → Except DecodeError (List Char)
  | _, [] => .ok []
  | 0, _ :: _ => .error .Malformed
  | fuel + 1, b :: input =>
    match varintDecode (b :: input) with
    | .error _ => .error .Malformed
    | .ok (v, rest) =>
      if Nat.isValidChar v then
        match decodeChars fuel rest with
        | .error e => .error e
        | .ok cs => .ok (Char.ofNat v :: cs)
      else .error .Malformed

/-- Decode a string payload. -/
def strDecode (p : List Nat) : Except DecodeError String :=
  match decodeChars p.length p with
  | .error e => .error e
  | .ok cs => .ok (String.mk cs)

theorem varintEncodeAux_length_pos (fuel n : Nat) : 0 < (varintEncodeAux fuel n).length := by
  cases fuel with
  | zero => simp [varintEncodeAux]
  | succ fuel => by_cases hn : n < 128 <;> simp [varintEncodeAux, hn]

theorem decodeChars_encodeChars (cs : List Char) :
    ∀ fuel, cs.length ≤ fuel → decodeChars fuel (encodeChars cs) = .ok cs := by
  induction cs with
  | nil =>
    intro fuel _
    cases fuel <;> simp [encodeChars, decodeChars]
  | cons c tl ih =>
    intro fuel h
    cases fuel with
    | zero => simp at h
    | succ fuel =>
      have hval : Nat.isValidChar c.toNat := c.valid
      have hrep : encodeChars (c :: tl) = varintEncode c.toNat ++ encodeChars tl := rfl
      have hstep :
          decodeChars (fuel + 1) (varintEncode c.toNat ++ encodeChars tl) =
            match varintDecode (varintEncode c.toNat ++ encodeChars tl) with
            | .error _ => .error .Malformed
            | .ok (v, rest) =>
              if Nat.isValidChar v then
                match decodeChars fuel rest with
                | .error e => .error e
                | .ok cs2 => .ok (Char.ofNat v :: cs2)
              else .error .Malformed := by
        have hpos : 0 < (varintEncode c.toNat).length := varintEncodeAux_length_pos _ _
        cases hv : varintEncode c.toNat with
        | nil => simp [hv] at hpos
        | cons b bs => rfl
      rw [hrep, hstep, varintDecode_varintEncode c.toNat (encodeChars tl)]
      simp [hval, ih fuel (by simpa using h), Char.ofNat_toNat]

theorem strDecode_strEncode (s : String) : strDecode (strEncode s) = .ok s := by
  have hlen : s.data.length ≤ (encodeChars s.data).length := by
    induction s.data with
    | nil => simp [encodeChars]
    | cons c tl ih =>
      have hpos : 0 < (varintEncode c.toNat).length := varintEncodeAux_length_pos _ _
      simp only [encodeChars, List.length_cons, List.length_append]
      omega
  simp [strDecode, strEncode, decodeChars_encodeChars s.data _ hlen]

/-- 64-bit range of a mathematical integer, the values an `i64` can hold. -/
def i64Range (i : Int) : Prop :=
  -(2 ^ 63) ≤ i ∧ i < 2 ^ 63

instance (i : Int) : Decidable (i64Range i) := by
  unfold i64Range
  infer_instance

/-- The 64-bit two's-complement wire value of an integer. -/
def int64ToWire (i : Int) : Nat :=
  (i % (2 ^ 64 : Int)).toNat

/-- The integer denoted by a 64-bit two's-complement wire value. -/
def wireToInt64 (n : Nat) : Int :=
  if n % 2 ^ 64 < 2 ^ 63 then ((n % 2 ^ 64 : Nat) : Int)
  else ((n % 2 ^ 64 : Nat) : Int) - 2 ^ 64

theorem wireToInt64_int64ToWire (i : Int) (h : i64Range i) :
    wireToInt64 (int64ToWire i) = i := by
  obtain ⟨h1, h2⟩ := h
  have h3 : 0 ≤ i % (2 ^ 64 : Int) := Int.emod_nonneg i (by norm_num)
  have h4 : i % (2 ^ 64 : Int) < 2 ^ 64 := Int.emod_lt_of_pos i (by norm_num)
  unfold wireToInt64 int64ToWire
  have h5 : ((i % (2 ^ 64 : Int)).toNat : Int) = i % (2 ^ 64 : Int) := Int.toNat_of_nonneg h3
  have h6 : (i % (2 ^ 64 : Int)).toNat % 2 ^ 64 = (i % (2 ^ 64 : Int)).toNat := by
    apply Nat.mod_eq_of_lt
    omega
  rw [h6]
  omega

/-! ### Per-type encoders and decoders

Modelled from the spec: each entity encodes as its field sequence in tag
order (required fields always present, optional fields present only when
set, repeated fields one entry per element in order).  Each decoder parses
the field sequence, folds it accepting fields in any order with
last-one-wins, skips unknown field tags in plain messages, rejects unknown
variant tags in the oneof wrappers `Msg` and `ContractResult`, and checks
required-field presence at the end. -/

/-- Decoding accumulator step for `Coin` (denom tag 1, amount tag 2). -/
def coinStep : Option String × Option String → Nat × FieldVal →
    Except DecodeError (Option String × Option String)
  | acc, (1, .bytes p) =>
    match strDecode p with
    | .error e => .error e
    | .ok s => .ok (some s, acc.2)
  | _, (1, .varint _) => .error .Malformed
  | acc, (2, .bytes p) =>
    match strDecode p with
    | .error e => .error e
    | .ok s => .ok (acc.1, some s)
  | _, (2, .varint _) => .error .Malformed
  | acc, _ => .ok acc

/-- Decode a `Coin` from its parsed field sequence. -/
def decodeCoinFields (fs : List (Nat × FieldVal)) : Except DecodeError Coin :=
  match foldFields coinStep (none, none) fs with
  | .error e => .error e
  | .ok (some d, some a) => .ok ⟨d, a⟩
  | .ok _ => .error .MissingField

/-- Decode a `Coin` from bytes. -/
def decodeCoin (input : List Nat) : Except DecodeError Coin :=
  match parseFields input.length input with
  | .error e => .error e
  | .ok fs => decodeCoinFields fs

/-- Field sequence of a `Coin`. -/
def fieldsOfCoin (c : Coin) : List (Nat × FieldVal) :=
  [(1, .bytes (strEncode c.denom)), (2, .bytes (strEncode c.amount))]

/-- Encode a `Coin` to bytes. -/
def encodeCoin (c : Coin) : List Nat :=
  encodeFields (fieldsOfCoin c)

/-- Decoding accumulator step for `BlockInfo` (height tag 1, time tag 2,
chain_id tag 3). -/
def blockInfoStep : Option Int × Option Int × Option String → Nat × FieldVal →
    Except DecodeError (Option Int × Option Int × Option String)
  | acc, (1, .varint v) => .ok (some (wireToInt64 v), acc.2.1, acc.2.2)
  | _, (1, .bytes _) => .error .Malformed
  | acc, (2, .varint v) => .ok (acc.1, some (wireToInt64 v), acc.2.2)
  | _, (2, .bytes _) => .error .Malformed
  | acc, (3, .bytes p) =>
    match strDecode p with
    | .error e => .error e
    | .ok s => .ok (acc.1, acc.2.1, some s)
  | _, (3, .varint _) => .error .Malformed
  | acc, _ => .ok acc

/-- Decode a `BlockInfo` from its parsed field sequence. -/
def decodeBlockInfoFields (fs : List (Nat × FieldVal)) : Except DecodeError BlockInfo :=
  match foldFields blockInfoStep (none, none, none) fs with
  | .error e => .error e
  | .ok (some h, some t, some c) => .ok ⟨h, t, c⟩
  | .ok _ => .error .MissingField

/-- Decode a `BlockInfo` from bytes. -/
def decodeBlockInfo (input : List Nat) : Except DecodeError BlockInfo :=
  match parseFields input.length input with
  | .error e => .error e
  | .ok fs => decodeBlockInfoFields fs

/-- Field sequence of a `BlockInfo`. -/
def fieldsOfBlockInfo (b : BlockInfo) : List (Nat × FieldVal) :=
  [(1, .varint (int64ToWire b.height)), (2, .varint (int64ToWire b.time)),
    (3, .bytes (strEncode b.chain_id))]

/-- Encode a `BlockInfo` to bytes. -/
def encodeBlockInfo (b : BlockInfo) : List Nat :=
  encodeFields (fieldsOfBlockInfo b)

/-- Shared decoding accumulator step for `MessageInfo` and `ContractInfo`
(a string at tag 1, repeated coins at tag 2). -/
def strCoinsStep : Option String × List Coin → Nat × FieldVal →
    Except DecodeError (Option String × List Coin)
  | acc, (1, .bytes p) =>
    match strDecode p with
    | .error e => .error e
    | .ok s => .ok (some s, acc.2)
  | _, (1, .varint _) => .error .Malformed
  | acc, (2, .bytes p) =>
    match decodeCoin p with
    | .error e => .error e
    | .ok c => .ok (acc.1, acc.2 ++ [c])
  | _, (2, .varint _) => .error .Malformed
  | acc, _ => .ok acc

/-- Decode a `MessageInfo` from its parsed field sequence. -/
def decodeMessageInfoFields (fs : List (Nat × FieldVal)) : Except DecodeError MessageInfo :=
  match foldFields strCoinsStep (none, []) fs with
  | .error e => .error e
  | .ok (some s, cs) => .ok ⟨s, cs⟩
  | .ok (none, _) => .error .MissingField

/-- Decode a `MessageInfo` from bytes. -/
def decodeMessageInfo (input : List Nat) : Except DecodeError MessageInfo :=
  match parseFields input.length input with
  | .error e => .error e
  | .ok fs => decodeMessageInfoFields fs

/-- Field sequence of a `MessageInfo`. -/
def fieldsOfMessageInfo (m : MessageInfo) : List (Nat × FieldVal) :=
  (1, .bytes (strEncode m.signer)) :: m.sent_funds.map fun c => (2, .bytes (encodeCoin c))

/-- Encode a `MessageInfo` to bytes. -/
def encodeMessageInfo (m : MessageInfo) : List Nat :=
  encodeFields (fieldsOfMessageInfo m)

/-- Decode a `ContractInfo` from its parsed field sequence. -/
def decodeContractInfoFields (fs : List (Nat × FieldVal)) : Except DecodeError ContractInfo :=
  match foldFields strCoinsStep (none, []) fs with
  | .error e => .error e
  | .ok (some s, cs) => .ok ⟨s, cs⟩
  | .ok (none, _) => .error .MissingField

/-- Decode a `ContractInfo` from bytes. -/
def decodeContractInfo (input : List Nat) : Except DecodeError ContractInfo :=
  match parseFields input.length input with
  | .error e => .error e
  | .ok fs => decodeContractInfoFields fs

/-- Field sequence of a `ContractInfo`. -/
def fieldsOfContractInfo (ci : ContractInfo) : List (Nat × FieldVal) :=
  (1, .bytes (strEncode ci.address)) :: ci.balance.map fun c => (2, .bytes (encodeCoin c))

/-- Encode a `ContractInfo` to bytes. -/
def encodeContractInfo (ci : ContractInfo) : List Nat :=
  encodeFields (fieldsOfContractInfo ci)

/-- Decoding accumulator step for `Params` (block tag 1, message tag 2,
contract tag 3, all required nested messages). -/
def paramsStep : Option BlockInfo × Option MessageInfo × Option ContractInfo → Nat × FieldVal →
    Except DecodeError (Option BlockInfo × Option MessageInfo × Option ContractInfo)
  | acc, (1, .bytes p) =>
    match decodeBlockInfo p with
    | .error e => .error e
    | .ok b => .ok (some b, acc.2.1, acc.2.2)
  | _, (1, .varint _) => .error .Malformed
  | acc, (2, .bytes p) =>
    match decodeMessageInfo p with
    | .error e => .error e
    | .ok m => .ok (acc.1, some m, acc.2.2)
  | _, (2, .varint _) => .error .Malformed
  | acc, (3, .bytes p) =>
    match decodeContractInfo p with
    | .error e => .error e
    | .ok c => .ok (acc.1, acc.2.1, some c)
  | _, (3, .varint _) => .error .Malformed
  | acc, _ => .ok acc

/-- Decode a `Params` from its parsed field sequence. -/
def decodeParamsFields (fs : List (Nat × FieldVal)) : Except DecodeError Params :=
  match foldFields paramsStep (none, none, none) fs with
  | .error e => .error e
  | .ok (some b, some m, some c) => .ok ⟨b, m, c⟩
  | .ok _ => .error .MissingField

/-- Decode a `Params` from bytes. -/
def decodeParams (input : List Nat) : Except DecodeError Params :=
  match parseFields input.length input with
  | .error e => .error e
  | .ok fs => decodeParamsFields fs

/-- Field sequence of a `Params`. -/
def fieldsOfParams (p : Params) : List (Nat × FieldVal) :=
  [(1, .bytes (encodeBlockInfo p.block)), (2, .bytes (encodeMessageInfo p.message)),
    (3, .bytes (encodeContractInfo p.contract))]

/-- Encode a `Params` to bytes. -/
def encodeParams (p : Params) : List Nat :=
  encodeFields (fieldsOfParams p)

/-- Decoding accumulator step for `SendMsg` (from_address tag 1, to_address
tag 2, repeated amount tag 3). -/
def sendMsgStep : Option String × Option String × List Coin → Nat × FieldVal →
    Except DecodeError (Option String × Option String × List Coin)
  | acc, (1, .bytes p) =>
    match strDecode p with
    | .error e => .error e
    | .ok s => .ok (some s, acc.2.1, acc.2.2)
  | _, (1, .varint _) => .error .Malformed
  | acc, (2, .bytes p) =>
    match strDecode p with
    | .error e => .error e
    | .ok s => .ok (acc.1, some s, acc.2.2)
  | _, (2, .varint _) => .error .Malformed
  | acc, (3, .bytes p) =>
    match decodeCoin p with
    | .error e => .error e
    | .ok c => .ok (acc.1, acc.2.1, acc.2.2 ++ [c])
  | _, (3, .varint _) => .error .Malformed
  | acc, _ => .ok acc

/-- Decode a `SendMsg` from its parsed field sequence. -/
def decodeSendMsgFields (fs : List (Nat × FieldVal)) : Except DecodeError SendMsg :=
  match foldFields sendMsgStep (none, none, []) fs with
  | .error e => .error e
  | .ok (some f, some t, cs) => .ok ⟨f, t, cs⟩
  | .ok _ => .error .MissingField

/-- Decode a `SendMsg` from bytes. -/
def decodeSendMsg (input : List Nat) : Except DecodeError SendMsg :=
  match parseFields input.length input with
  | .error e => .error e
  | .ok fs => decodeSendMsgFields fs

/-- Field sequence of a `SendMsg`. -/
def fieldsOfSendMsg (s : SendMsg) : List (Nat × FieldVal) :=
  (1, .bytes (strEncode s.from_address)) :: (2, .bytes (strEncode s.to_address)) ::
    s.amount.map fun c => (3, .bytes (encodeCoin c))

/-- Encode a `SendMsg` to bytes. -/
def encodeSendMsg (s : SendMsg) : List Nat :=
  encodeFields (fieldsOfSendMsg s)

/-- Decoding accumulator step for `ContractMsg` (contract_addr tag 1, msg
tag 2). -/
def contractMsgStep : Option String × Option String → Nat × FieldVal →
    Except DecodeError (Option String × Option String)
  | acc, (1, .bytes p) =>
    match strDecode p with
    | .error e => .error e
    | .ok s => .ok (some s, acc.2)
  | _, (1, .varint _) => .error .Malformed
  | acc, (2, .bytes p) =>
    match strDecode p with
    | .error e => .error e
    | .ok s => .ok (acc.1, some s)
  | _, (2, .varint _) => .error .Malformed
  | acc, _ => .ok acc

/-- Decode a `ContractMsg` from its parsed field sequence. -/
def decodeContractMsgFields (fs : List (Nat × FieldVal)) : Except DecodeError ContractMsg :=
  match foldFields contractMsgStep (none, none) fs with
  | .error e => .error e
  | .ok (some a, some m) => .ok ⟨a, m⟩
  | .ok _ => .error .MissingField

/-- Decode a `ContractMsg` from bytes. -/
def decodeContractMsg (input : List Nat) : Except DecodeError ContractMsg :=
  match parseFields input.length input with
  | .error e => .error e
  | .ok fs => decodeContractMsgFields fs

/-- Field sequence of a `ContractMsg`. -/
def fieldsOfContractMsg (c : ContractMsg) : List (Nat × FieldVal) :=
  [(1, .bytes (strEncode c.contract_addr)), (2, .bytes (strEncode c.msg))]

/-- Encode a `ContractMsg` to bytes. -/
def encodeContractMsg (c : ContractMsg) : List Nat :=
  encodeFields (fieldsOfContractMsg c)

/-- Decoding accumulator step for `OpaqueMsg` (data tag 1). -/
def opaqueMsgStep : Option String → Nat × FieldVal → Except DecodeError (Option String)
  | _, (1, .bytes p) =>
    match strDecode p with
    | .error e => .error e
    | .ok s => .ok (some s)
  | _, (1, .varint _) => .error .Malformed
  | acc, _ => .ok acc

/-- Decode an `OpaqueMsg` from its parsed field sequence. -/
def decodeOpaqueMsgFields (fs : List (Nat × FieldVal)) : Except DecodeError OpaqueMsg :=
  match foldFields opaqueMsgStep none fs with
  | .error e => .error e
  | .ok (some d) => .ok ⟨d⟩
  | .ok none => .error .MissingField

/-- Decode an `OpaqueMsg` from bytes. -/
def decodeOpaqueMsg (input : List Nat) : Except DecodeError OpaqueMsg :=
  match parseFields input.length input with
  | .error e => .error e
  | .ok fs => decodeOpaqueMsgFields fs

/-- Field sequence of an `OpaqueMsg`. -/
def fieldsOfOpaqueMsg (o : OpaqueMsg) : List (Nat × FieldVal) :=
  [(1, .bytes (strEncode o.data))]

/-- Encode an `OpaqueMsg` to bytes. -/
def encodeOpaqueMsg (o : OpaqueMsg) : List Nat :=
  encodeFields (fieldsOfOpaqueMsg o)

/-- Decoding accumulator step for the `CosmosMsg` oneof inside `Msg` (Send
tag 1, Contract tag 2, Opaque tag 3; any other field number is an unknown
variant tag and is rejected, never skipped). -/
def msgStep : Option CosmosMsg → Nat × FieldVal → Except DecodeError (Option CosmosMsg)
  | _, (1, .bytes p) =>
    match decodeSendMsg p with
    | .error e => .error e
    | .ok s => .ok (some (CosmosMsg.Send s))
  | _, (2, .bytes p) =>
    match decodeContractMsg p with
    | .error e => .error e
    | .ok c => .ok (some (CosmosMsg.Contract c))
  | _, (3, .bytes p) =>
    match decodeOpaqueMsg p with
    | .error e => .error e
    | .ok o => .ok (some (CosmosMsg.Opaque o))
  | _, (1, .varint _) => .error .Malformed
  | _, (2, .varint _) => .error .Malformed
  | _, (3, .varint _) => .error .Malformed
  | _, _ => .error .UnknownVariant

/-- Decode a `Msg` from its parsed field sequence; an absent variant tag
yields the unset union, not an error. -/
def decodeMsgFields (fs : List (Nat × FieldVal)) : Except DecodeError Msg :=
  match foldFields msgStep none fs with
  | .error e => .error e
  | .ok v => .ok ⟨v⟩

/-- Decode a `Msg` from bytes. -/
def decodeMsg (input : List Nat) : Except DecodeError Msg :=
  match parseFields input.length input with
  | .error e => .error e
  | .ok fs => decodeMsgFields fs

/-- The single field of an active `CosmosMsg` variant. -/
def cosmosMsgField : CosmosMsg → Nat × FieldVal
  | .Send s => (1, .bytes (encodeSendMsg s))
  | .Contract c => (2, .bytes (encodeContractMsg c))
  | .Opaque o => (3, .bytes (encodeOpaqueMsg o))

/-- Field sequence of a `Msg`: nothing when the union is unset, one variant
field otherwise. -/
def fieldsOfMsg (m : Msg) : List (Nat × FieldVal) :=
  match m.msg with
  | none => []
  | some v => [cosmosMsgField v]

/-- Encode a `Msg` to bytes. -/
def encodeMsg (m : Msg) : List Nat :=
  encodeFields (fieldsOfMsg m)

/-- Decoding accumulator step for `Response` (repeated messages tag 1,
optional log tag 2, optional data tag 3). -/
def responseStep : List Msg × Option String × Option String → Nat × FieldVal →
    Except DecodeError (List Msg × Option String × Option String)
  | acc, (1, .bytes p) =>
    match decodeMsg p with
    | .error e => .error e
    | .ok m => .ok (acc.1 ++ [m], acc.2.1, acc.2.2)
  | _, (1, .varint _) => .error .Malformed
  | acc, (2, .bytes p) =>
    match strDecode p with
    | .error e => .error e
    | .ok s => .ok (acc.1, some s, acc.2.2)
  | _, (2, .varint _) => .error .Malformed
  | acc, (3, .bytes p) =>
    match strDecode p with
    | .error e => .error e
    | .ok s => .ok (acc.1, acc.2.1, some s)
  | _, (3, .varint _) => .error .Malformed
  | acc, _ => .ok acc

/-- Decode a `Response` from its parsed field sequence; absent optional
fields stay absent and an absent repeated field stays empty. -/
def decodeResponseFields (fs : List (Nat × FieldVal)) : Except DecodeError Response :=
  match foldFields responseStep ([], none, none) fs with
  | .error e => .error e
  | .ok (ms, l, d) => .ok ⟨ms, l, d⟩

/-- Decode a `Response` from bytes. -/
def decodeResponse (input : List Nat) : Except DecodeError Response :=
  match parseFields input.length input with
  | .error e => .error e
  | .ok fs => decodeResponseFields fs

/-- Field sequence of a `Response`. -/
def fieldsOfResponse (r : Response) : List (Nat × FieldVal) :=
  (r.messages.map fun m => (1, .bytes (encodeMsg m))) ++
    (match r.log with
     | none => []
     | some s => [(2, .bytes (strEncode s))]) ++
    (match r.data with
     | none => []
     | some s => [(3, .bytes (strEncode s))])

/-- Encode a `Response` to bytes. -/
def encodeResponse (r : Response) : List Nat :=
  encodeFields (fieldsOfResponse r)

/-- Decoding accumulator step for the `Result` oneof inside `ContractResult`
(Ok tag 1, Err tag 2; any other field number is an unknown variant tag and
is rejected, never skipped). -/
def resultStep : Option Result → Nat × FieldVal → Except DecodeError (Option Result)
  | _, (1, .bytes p) =>
    match decodeResponse p with
    | .error e => .error e
    | .ok r => .ok (some (Result.Ok r))
  | _, (2, .bytes p) =>
    match strDecode p with
    | .error e => .error e
    | .ok s => .ok (some (Result.Err s))
  | _, (1, .varint _) => .error .Malformed
  | _, (2, .varint _) => .error .Malformed
  | _, _ => .error .UnknownVariant

/-- Decode a `ContractResult` from its parsed field sequence; an absent
variant tag yields the unset union, not an error. -/
def decodeContractResultFields (fs : List (Nat × FieldVal)) : Except DecodeError ContractResult :=
  match foldFields resultStep none fs with
  | .error e => .error e
  | .ok v => .ok ⟨v⟩

/-- Decode a `ContractResult` from bytes. -/
def decodeContractResult (input : List Nat) : Except DecodeError ContractResult :=
  match parseFields input.length input with
  | .error e => .error e
  | .ok fs => decodeContractResultFields fs

/-- The single field of an active `Result` variant. -/
def resultField : Result → Nat × FieldVal
  | .Ok r => (1, .bytes (encodeResponse r))
  | .Err s => (2, .bytes (strEncode s))

/-- Field sequence of a `ContractResult`: nothing when the union is unset,
one variant field otherwise. -/
def fieldsOfContractResult (c : ContractResult) : List (Nat × FieldVal) :=
  match c.res with
  | none => []
  | some v => [resultField v]

/-- Encode a `ContractResult` to bytes. -/
def encodeContractResult (c : ContractResult) : List Nat :=
  encodeFields (fieldsOfContractResult c)

/-! ### Round-trip lemmas -/

theorem length_le_encodeFields (fs : List (Nat × FieldVal)) :
    fs.length ≤ (encodeFields fs).length := by
  induction fs with
  | nil => simp [encodeFields]
  | cons f tl ih =>
    have hne : encodeField f ≠ [] := encodeField_ne_nil f
    have hpos : 0 < (encodeField f).length := List.length_pos.mpr hne
    have : encodeFields (f :: tl) = encodeField f ++ encodeFields tl := by
      simp [encodeFields]
    rw [this]
    simp only [List.length_cons, List.length_append]
    omega

theorem parseFields_self (fs : List (Nat × FieldVal)) :
    parseFields (encodeFields fs).length (encodeFields fs) = .ok fs :=
  parseFields_encodeFields fs _ (length_le_encodeFields fs)

theorem decodeCoin_encodeCoin (c : Coin) : decodeCoin (encodeCoin c) = .ok c := by
  simp [decodeCoin, encodeCoin, parseFields_self, decodeCoinFields, fieldsOfCoin,
    foldFields, coinStep, strDecode_strEncode]

/-- The value a `BlockInfo` decodes back to: its integers normalised through
the 64-bit wire representation. -/
def normBlockInfo (b : BlockInfo) : BlockInfo :=
  ⟨wireToInt64 (int64ToWire b.height), wireToInt64 (int64ToWire b.time), b.chain_id⟩

/-- An `i64`-representable `BlockInfo`, i.e. one constructible in the Rust
source, where height and time are `i64` fields. -/
def BlockInfo.Wf (b : BlockInfo) : Prop :=
  i64Range b.height ∧ i64Range b.time

instance (b : BlockInfo) : Decidable b.Wf := by
  unfold BlockInfo.Wf
  infer_instance

/-- An `i64`-representable `Params`. -/
def Params.Wf (p : Params) : Prop :=
  p.block.Wf

instance (p : Params) : Decidable p.Wf := by
  unfold Params.Wf
  infer_instance

theorem normBlockInfo_eq_self (b : BlockInfo) (h : b.Wf) : normBlockInfo b = b := by
  obtain ⟨h1, h2⟩ := h
  simp [normBlockInfo, wireToInt64_int64ToWire _ h1, wireToInt64_int64ToWire _ h2]

theorem decodeBlockInfo_encodeBlockInfo (b : BlockInfo) :
    decodeBlockInfo (encodeBlockInfo b) = .ok (normBlockInfo b) := by
  simp [decodeBlockInfo, encodeBlockInfo, parseFields_self, decodeBlockInfoFields,
    fieldsOfBlockInfo, foldFields, blockInfoStep, strDecode_strEncode, normBlockInfo]

theorem decodeBlockInfo_roundtrip (b : BlockInfo) (h : b.Wf) :
    decodeBlockInfo (encodeBlockInfo b) = .ok b := by
  rw [decodeBlockInfo_encodeBlockInfo, normBlockInfo_eq_self b h]

theorem foldFields_append (step : σ → Nat × FieldVal → Except DecodeError σ)
    (fs1 : List (Nat × FieldVal)) :
    ∀ (s : σ) (fs2 : List (Nat × FieldVal)),
      foldFields step s (fs1 ++ fs2) =
        match foldFields step s fs1 with
        | .error e => .error e
        | .ok s2 => foldFields step s2 fs2 := by
  induction fs1 with
  | nil => intro s fs2; simp [foldFields]
  | cons f tl ih =>
    intro s fs2
    simp only [List.cons_append, foldFields]
    cases step s f with
    | error e => rfl
    | ok s2 => exact ih s2 fs2

theorem foldFields_strCoins (coins : List Coin) :
    ∀ (s : Option String) (acc : List Coin),
      foldFields strCoinsStep (s, acc) (coins.map fun c => (2, FieldVal.bytes (encodeCoin c))) =
        .ok (s, acc ++ coins) := by
  induction coins with
  | nil => intro s acc; simp [foldFields]
  | cons c tl ih =>
    intro s acc
    simp only [List.map_cons, foldFields, strCoinsStep, decodeCoin_encodeCoin c]
    rw [ih s (acc ++ [c])]
    simp

theorem decodeMessageInfo_encodeMessageInfo (m : MessageInfo) :
    decodeMessageInfo (encodeMessageInfo m) = .ok m := by
  simp only [decodeMessageInfo, encodeMessageInfo, parseFields_self, decodeMessageInfoFields,
    fieldsOfMessageInfo, foldFields, strCoinsStep, strDecode_strEncode m.signer]
  rw [foldFields_strCoins m.sent_funds (some m.signer) []]
  simp

theorem decodeContractInfo_encodeContractInfo (ci : ContractInfo) :
    decodeContractInfo (encodeContractInfo ci) = .ok ci := by
  simp only [decodeContractInfo, encodeContractInfo, parseFields_self, decodeContractInfoFields,
    fieldsOfContractInfo, foldFields, strCoinsStep, strDecode_strEncode ci.address]
  rw [foldFields_strCoins ci.balance (some ci.address) []]
  simp

theorem decodeParams_encodeParams (p : Params) :
    decodeParams (encodeParams p) =
      .ok ⟨normBlockInfo p.block, p.message, p.contract⟩ := by
  simp [decodeParams, encodeParams, parseFields_self, decodeParamsFields, fieldsOfParams,
    foldFields, paramsStep, decodeBlockInfo_encodeBlockInfo,
    decodeMessageInfo_encodeMessageInfo, decodeContractInfo_encodeContractInfo]

theorem decodeParams_roundtrip (p : Params) (h : p.Wf) :
    decodeParams (encodeParams p) = .ok p := by
  rw [decodeParams_encodeParams, normBlockInfo_eq_self p.block h]

theorem foldFields_sendCoins (coins : List Coin) :
    ∀ (f t : Option String) (acc : List Coin),
      foldFields sendMsgStep (f, t, acc) (coins.map fun c => (3, FieldVal.bytes (encodeCoin c))) =
        .ok (f, t, acc ++ coins) := by
  induction coins with
  | nil => intro f t acc; simp [foldFields]
  | cons c tl ih =>
    intro f t acc
    simp only [List.map_cons, foldFields, sendMsgStep, decodeCoin_encodeCoin c]
    rw [ih f t (acc ++ [c])]
    simp

theorem decodeSendMsg_encodeSendMsg (s : SendMsg) :
    decodeSendMsg (encodeSendMsg s) = .ok s := by
  simp only [decodeSendMsg, encodeSendMsg, parseFields_self, decodeSendMsgFields,
    fieldsOfSendMsg, foldFields, sendMsgStep, strDecode_strEncode]
  rw [foldFields_sendCoins s.amount (some s.from_address) (some s.to_address) []]
  simp

theorem decodeContractMsg_encodeContractMsg (c : ContractMsg) :
    decodeContractMsg (encodeContractMsg c) = .ok c := by
  simp [decodeContractMsg, encodeContractMsg, parseFields_self, decodeContractMsgFields,
    fieldsOfContractMsg, foldFields, contractMsgStep, strDecode_strEncode]

theorem decodeOpaqueMsg_encodeOpaqueMsg (o : OpaqueMsg) :
    decodeOpaqueMsg (encodeOpaqueMsg o) = .ok o := by
  simp [decodeOpaqueMsg, encodeOpaqueMsg, parseFields_self, decodeOpaqueMsgFields,
    fieldsOfOpaqueMsg, foldFields, opaqueMsgStep, strDecode_strEncode]

theorem msgStep_cosmosMsgField (acc : Option CosmosMsg) (v : CosmosMsg) :
    msgStep acc (cosmosMsgField v) = .ok (some v) := by
  cases v with
  | Send s => simp [cosmosMsgField, msgStep, decodeSendMsg_encodeSendMsg]
  | Contract c => simp [cosmosMsgField, msgStep, decodeContractMsg_encodeContractMsg]
  | Opaque o => simp [cosmosMsgField, msgStep, decodeOpaqueMsg_encodeOpaqueMsg]

theorem decodeMsg_encodeMsg (m : Msg) : decodeMsg (encodeMsg m) = .ok m := by
  obtain ⟨v⟩ := m
  cases v with
  | none => simp [decodeMsg, encodeMsg, parseFields_self, decodeMsgFields, fieldsOfMsg,
      foldFields]
  | some v =>
    simp [decodeMsg, encodeMsg, parseFields_self, decodeMsgFields, fieldsOfMsg,
      foldFields, msgStep_cosmosMsgField]

theorem foldFields_responseMsgs (msgs : List Msg) :
    ∀ (acc : List Msg) (l d : Option String),
      foldFields responseStep (acc, l, d) (msgs.map fun m => (1, FieldVal.bytes (encodeMsg m))) =
        .ok (acc ++ msgs, l, d) := by
  induction msgs with
  | nil => intro acc l d; simp [foldFields]
  | cons m tl ih =>
    intro acc l d
    simp only [List.map_cons, foldFields, responseStep, decodeMsg_encodeMsg m]
    rw [ih (acc ++ [m]) l d]
    simp

theorem decodeResponse_encodeResponse (r : Response) :
    decodeResponse (encodeResponse r) = .ok r := by
  obtain ⟨msgs, l, d⟩ := r
  have hfold :
      foldFields responseStep ([], none, none) (fieldsOfResponse ⟨msgs, l, d⟩) =
        .ok (msgs, l, d) := by
    simp only [fieldsOfResponse]
    rw [foldFields_append, foldFields_append, foldFields_responseMsgs msgs [] none none]
    cases l with
    | none =>
      cases d with
      | none => simp [foldFields]
      | some ds => simp [foldFields, responseStep, strDecode_strEncode]
    | some ls =>
      cases d with
      | none => simp [foldFields, responseStep, strDecode_strEncode]
      | some ds => simp [foldFields, responseStep, strDecode_strEncode]
  simp [decodeResponse, encodeResponse, parseFields_self, decodeResponseFields, hfold]

theorem resultStep_resultField (acc : Option Result) (v : Result) :
    resultStep acc (resultField v) = .ok (some v) := by
  cases v with
  | Ok r => simp [resultField, resultStep, decodeResponse_encodeResponse]
  | Err e => simp [resultField, resultStep, strDecode_strEncode]

theorem decodeContractResult_encodeContractResult (c : ContractResult) :
    decodeContractResult (encodeContractResult c) = .ok c := by
  obtain ⟨v⟩ := c
  cases v with
  | none => simp [decodeContractResult, encodeContractResult, parseFields_self,
      decodeContractResultFields, fieldsOfContractResult, foldFields]
  | some v =>
    simp [decodeContractResult, encodeContractResult, parseFields_self,
      decodeContractResultFields, fieldsOfContractResult, foldFields, resultStep_resultField]

/-! ## Claim theorems -/

/-- C1: for every constructible value of every entity type (Params,
BlockInfo, MessageInfo, ContractInfo, Coin, Msg, SendMsg, ContractMsg,
OpaqueMsg, ContractResult, Response), decoding the encoding yields a value
structurally equal to the original, including the active union variant and
optional-field presence.  Constructibility of the `i64` fields of
`BlockInfo` (and hence of `Params`) is the stated 64-bit range. -/
theorem C1_roundtrip_all :
    (∀ c : Coin, decodeCoin (encodeCoin c) = .ok c) ∧
    (∀ b : BlockInfo, b.Wf → decodeBlockInfo (encodeBlockInfo b) = .ok b) ∧
    (∀ m : MessageInfo, decodeMessageInfo (encodeMessageInfo m) = .ok m) ∧
    (∀ ci : ContractInfo, decodeContractInfo (encodeContractInfo ci) = .ok ci) ∧
    (∀ p : Params, p.Wf → decodeParams (encodeParams p) = .ok p) ∧
    (∀ s : SendMsg, decodeSendMsg (encodeSendMsg s) = .ok s) ∧
    (∀ cm : ContractMsg, decodeContractMsg (encodeContractMsg cm) = .ok cm) ∧
    (∀ o : OpaqueMsg, decodeOpaqueMsg (encodeOpaqueMsg o) = .ok o) ∧
    (∀ m : Msg, decodeMsg (encodeMsg m) = .ok m) ∧
    (∀ r : Response, decodeResponse (encodeResponse r) = .ok r) ∧
    (∀ cr : ContractResult, decodeContractResult (encodeContractResult cr) = .ok cr) :=
  ⟨decodeCoin_encodeCoin, decodeBlockInfo_roundtrip, decodeMessageInfo_encodeMessageInfo,
    decodeContractInfo_encodeContractInfo, decodeParams_roundtrip, decodeSendMsg_encodeSendMsg,
    decodeContractMsg_encodeContractMsg, decodeOpaqueMsg_encodeOpaqueMsg, decodeMsg_encodeMsg,
    decodeResponse_encodeResponse, decodeContractResult_encodeContractResult⟩

/-- Witness for C1 at the concrete `Params` of the source's test fixtures,
discharging the `i64`-range hypothesis there. -/
theorem C1_roundtrip_all_witness :
    (mock_params "signer" (coin "1015" "earth") []).Wf ∧
      decodeParams (encodeParams (mock_params "signer" (coin "1015" "earth") [])) =
        .ok (mock_params "signer" (coin "1015" "earth") []) :=
  ⟨by decide,
    C1_roundtrip_all.2.2.2.2.1 (mock_params "signer" (coin "1015" "earth") []) (by decide)⟩

theorem msgStep_unknown (acc : Option CosmosMsg) (t : Nat) (p : List Nat)
    (h1 : t ≠ 1) (h2 : t ≠ 2) (h3 : t ≠ 3) :
    msgStep acc (t, .bytes p) = .error .UnknownVariant := by
  rcases t with _ | _ | _ | _ | n
  · rfl
  · exact absurd rfl h1
  · exact absurd rfl h2
  · exact absurd rfl h3
  · rfl

theorem resultStep_unknown (acc : Option Result) (t : Nat) (p : List Nat)
    (h1 : t ≠ 1) (h2 : t ≠ 2) :
    resultStep acc (t, .bytes p) = .error .UnknownVariant := by
  rcases t with _ | _ | _ | n
  · rfl
  · exact absurd rfl h1
  · exact absurd rfl h2
  · rfl

/-- C2: a oneof field whose tag lies outside the known variant set
({1,2,3} for `CosmosMsg`, {1,2} for `Result`) makes decoding fail with
`UnknownVariant`, for any payload, instead of being skipped or decoded as a
known variant. -/
theorem C2_unknown_variant :
    (∀ (t : Nat) (payload : List Nat), t ≠ 1 → t ≠ 2 → t ≠ 3 →
      decodeMsg (encodeFields [(t, .bytes payload)]) = .error .UnknownVariant) ∧
    (∀ (t : Nat) (payload : List Nat), t ≠ 1 → t ≠ 2 →
      decodeContractResult (encodeFields [(t, .bytes payload)]) = .error .UnknownVariant) := by
  constructor
  · intro t payload h1 h2 h3
    simp [decodeMsg, parseFields_self, decodeMsgFields, foldFields,
      msgStep_unknown none t payload h1 h2 h3]
  · intro t payload h1 h2
    simp [decodeContractResult, parseFields_self, decodeContractResultFields, foldFields,
      resultStep_unknown none t payload h1 h2]

/-- Witness for C2 at tag 4 for `Msg` and tag 3 for `ContractResult`. -/
theorem C2_unknown_variant_witness :
    ((4 : Nat) ≠ 1 ∧ (4 : Nat) ≠ 2 ∧ (4 : Nat) ≠ 3 ∧ (3 : Nat) ≠ 1 ∧ (3 : Nat) ≠ 2) ∧
      decodeMsg (encodeFields [(4, .bytes [])]) = .error .UnknownVariant ∧
      decodeContractResult (encodeFields [(3, .bytes [])]) = .error .UnknownVariant :=
  ⟨by decide, C2_unknown_variant.1 4 [] (by decide) (by decide) (by decide),
    C2_unknown_variant.2 3 [] (by decide) (by decide)⟩

/-- C5: when two variant tags of a union are present in one stream, decoding
succeeds deterministically with the variant of the last tag in the stream. -/
theorem C5_last_tag_wins :
    (∀ v1 v2 : CosmosMsg,
      decodeMsg (encodeFields [cosmosMsgField v1, cosmosMsgField v2]) = .ok ⟨some v2⟩) ∧
    (∀ r1 r2 : Result,
      decodeContractResult (encodeFields [resultField r1, resultField r2]) = .ok ⟨some r2⟩) := by
  constructor
  · intro v1 v2
    simp [decodeMsg, parseFields_self, decodeMsgFields, foldFields, msgStep_cosmosMsgField]
  · intro r1 r2
    simp [decodeContractResult, parseFields_self, decodeContractResultFields, foldFields,
      resultStep_resultField]

/-- C6: a `Response` optional field set to `None` encodes and decodes back
to the explicit absent state, which is distinguishable from the present
empty string `Some ""`, itself decoding back to present-empty. -/
theorem C6_optional_presence :
    (∀ (msgs : List Msg) (l : Option String),
      decodeResponse (encodeResponse ⟨msgs, l, none⟩) = .ok ⟨msgs, l, none⟩) ∧
    (∀ (msgs : List Msg) (d : Option String),
      decodeResponse (encodeResponse ⟨msgs, none, d⟩) = .ok ⟨msgs, none, d⟩) ∧
    decodeResponse (encodeResponse ⟨[], none, some ""⟩) = .ok ⟨[], none, some ""⟩ ∧
    (some "" : Option String) ≠ none :=
  ⟨fun msgs l => decodeResponse_encodeResponse ⟨msgs, l, none⟩,
    fun msgs d => decodeResponse_encodeResponse ⟨msgs, none, d⟩,
    decodeResponse_encodeResponse ⟨[], none, some ""⟩, by simp⟩

/-- C7: `ContractResult::unwrap` returns exactly the wrapped `Response` on
the `Ok` variant and fails fatally (modelled as `none`) on the `Err` variant
and on the unset union. -/
theorem C7_unwrap :
    (∀ r : Response, ContractResult.unwrap ⟨some (Result.Ok r)⟩ = some r) ∧
    (∀ e : String, ContractResult.unwrap ⟨some (Result.Err e)⟩ = none) ∧
    ContractResult.unwrap ⟨none⟩ = none :=
  ⟨fun _ => rfl, fun _ => rfl, rfl⟩

/-- C8: `ContractResult::is_err` returns true exactly on the `Err` variant,
false on `Ok`, and fails fatally (modelled as `none`) on the unset union. -/
theorem C8_is_err :
    (∀ e : String, ContractResult.is_err ⟨some (Result.Err e)⟩ = some true) ∧
    (∀ r : Response, ContractResult.is_err ⟨some (Result.Ok r)⟩ = some false) ∧
    ContractResult.is_err ⟨none⟩ = none :=
  ⟨fun _ => rfl, fun _ => rfl, rfl⟩

/-- C9: the codec accepts the unset-union state in both directions: encoding
an unset `Msg` or `ContractResult` succeeds (producing the empty field
sequence), decoding a stream with no variant tag returns the unset value
without error, and no codec path on these values raises `InvalidEncoding`. -/
theorem C9_unset_union_codec :
    encodeMsg ⟨none⟩ = [] ∧ decodeMsg [] = .ok ⟨none⟩ ∧
    encodeContractResult ⟨none⟩ = [] ∧ decodeContractResult [] = .ok ⟨none⟩ ∧
    (∀ m : Msg, decodeMsg (encodeMsg m) ≠ .error .InvalidEncoding) ∧
    (∀ c : ContractResult, decodeContractResult (encodeContractResult c) ≠ .error .InvalidEncoding) :=
  ⟨rfl, rfl, rfl, rfl,
    fun m => by simp [decodeMsg_encodeMsg m],
    fun c => by simp [decodeContractResult_encodeContractResult c]⟩

/-- C10: `coin` builds exactly the one-element vector with the given field
values, and any `Coin` whatsoever, with no content validation, is accepted
by the codec and round-trips. -/
theorem C10_coin_constructor :
    (∀ amount denom : String, coin amount denom = [{ denom := denom, amount := amount }]) ∧
    (∀ c : Coin, decodeCoin (encodeCoin c) = .ok c) :=
  ⟨fun _ _ => rfl, decodeCoin_encodeCoin⟩

/-- C3 counterexample: `sent_funds` is a field of `MessageInfo`, and removing
its bytes from the valid encoding of a `MessageInfo` that carries one coin
decodes successfully to an empty coin sequence instead of failing with
`MissingField`. -/
theorem C3_counterexample :
    encodeMessageInfo ⟨"a", [⟨"d", "1"⟩]⟩ =
      encodeFields [(1, .bytes (strEncode "a"))] ++
        encodeFields [(2, .bytes (encodeCoin ⟨"d", "1"⟩))] ∧
    decodeMessageInfo (encodeFields [(1, .bytes (strEncode "a"))]) = .ok ⟨"a", []⟩ := by
  decide

/-- C3 as amended: removing the bytes of any required non-repeated field —
block, message or contract of `Params`, denom or amount of `Coin`, height,
time or chain_id of `BlockInfo`, signer of `MessageInfo`, address of
`ContractInfo` — from a valid encoding makes decoding fail with
`MissingField`; removing a repeated field (sent_funds, balance) instead
silently yields the empty sequence. -/
theorem C3_required_field_rejection :
    (∀ p : Params,
      decodeParams (encodeFields [(2, .bytes (encodeMessageInfo p.message)),
        (3, .bytes (encodeContractInfo p.contract))]) = .error .MissingField) ∧
    (∀ p : Params,
      decodeParams (encodeFields [(1, .bytes (encodeBlockInfo p.block)),
        (3, .bytes (encodeContractInfo p.contract))]) = .error .MissingField) ∧
    (∀ p : Params,
      decodeParams (encodeFields [(1, .bytes (encodeBlockInfo p.block)),
        (2, .bytes (encodeMessageInfo p.message))]) = .error .MissingField) ∧
    (∀ c : Coin,
      decodeCoin (encodeFields [(2, .bytes (strEncode c.amount))]) = .error .MissingField) ∧
    (∀ c : Coin,
      decodeCoin (encodeFields [(1, .bytes (strEncode c.denom))]) = .error .MissingField) ∧
    (∀ b : BlockInfo,
      decodeBlockInfo (encodeFields [(2, .varint (int64ToWire b.time)),
        (3, .bytes (strEncode b.chain_id))]) = .error .MissingField) ∧
    (∀ b : BlockInfo,
      decodeBlockInfo (encodeFields [(1, .varint (int64ToWire b.height)),
        (3, .bytes (strEncode b.chain_id))]) = .error .MissingField) ∧
    (∀ b : BlockInfo,
      decodeBlockInfo (encodeFields [(1, .varint (int64ToWire b.height)),
        (2, .varint (int64ToWire b.time))]) = .error .MissingField) ∧
    (∀ m : MessageInfo,
      decodeMessageInfo (encodeFields (m.sent_funds.map fun c => (2, .bytes (encodeCoin c)))) =
        .error .MissingField) ∧
    (∀ ci : ContractInfo,
      decodeContractInfo (encodeFields (ci.balance.map fun c => (2, .bytes (encodeCoin c)))) =
        .error .MissingField) := by
  refine ⟨fun p => ?_, fun p => ?_, fun p => ?_, fun c => ?_, fun c => ?_,
    fun b => ?_, fun b => ?_, fun b => ?_, fun m => ?_, fun ci => ?_⟩
  · simp [decodeParams, parseFields_self, decodeParamsFields, foldFields, paramsStep,
      decodeMessageInfo_encodeMessageInfo, decodeContractInfo_encodeContractInfo]
  · simp [decodeParams, parseFields_self, decodeParamsFields, foldFields, paramsStep,
      decodeBlockInfo_encodeBlockInfo, decodeContractInfo_encodeContractInfo]
  · simp [decodeParams, parseFields_self, decodeParamsFields, foldFields, paramsStep,
      decodeBlockInfo_encodeBlockInfo, decodeMessageInfo_encodeMessageInfo]
  · simp [decodeCoin, parseFields_self, decodeCoinFields, foldFields, coinStep,
      strDecode_strEncode]
  · simp [decodeCoin, parseFields_self, decodeCoinFields, foldFields, coinStep,
      strDecode_strEncode]
  · simp [decodeBlockInfo, parseFields_self, decodeBlockInfoFields, foldFields, blockInfoStep,
      strDecode_strEncode]
  · simp [decodeBlockInfo, parseFields_self, decodeBlockInfoFields, foldFields, blockInfoStep,
      strDecode_strEncode]
  · simp [decodeBlockInfo, parseFields_self, decodeBlockInfoFields, foldFields, blockInfoStep]
  · simp only [decodeMessageInfo, parseFields_self, decodeMessageInfoFields]
    rw [foldFields_strCoins m.sent_funds none []]
  · simp only [decodeContractInfo, parseFields_self, decodeContractInfoFields]
    rw [foldFields_strCoins ci.balance none []]
/-! ### Truncation analysis: strict prefixes of valid encodings -/

theorem varintDecode_take (fuel : Nat) :
    ∀ n k, k < (varintEncodeAux fuel n).length →
      varintDecode ((varintEncodeAux fuel n).take k) = .error .Truncated := by
  induction fuel with
  | zero =>
    intro n k h
    simp only [varintEncodeAux, List.length_cons, List.length_nil] at h
    obtain rfl : k = 0 := by omega
    simp [varintDecode]
  | succ fuel ih =>
    intro n k h
    by_cases hn : n < 128
    · simp only [varintEncodeAux, hn, if_true, List.length_cons, List.length_nil] at h
      obtain rfl : k = 0 := by omega
      simp [varintEncodeAux, hn, varintDecode]
    · simp only [varintEncodeAux, hn, if_false, List.length_cons] at h ⊢
      cases k with
      | zero => simp [varintDecode]
      | succ j =>
        have hb : ¬ (n % 128 + 128 < 128) := by omega
        simp [List.take_succ_cons, varintDecode, hb, ih (n / 128) j (by omega)]

theorem varintDecode_take_varintEncode (n k : Nat) (h : k < (varintEncode n).length) :
    varintDecode ((varintEncode n).take k) = .error .Truncated :=
  varintDecode_take n n k h

theorem varintEncode_length_pos (n : Nat) : 0 < (varintEncode n).length :=
  varintEncodeAux_length_pos n n

theorem readField_take (f : Nat × FieldVal) (k : Nat) (_hk0 : 0 < k)
    (hk : k < (encodeField f).length) :
    readField ((encodeField f).take k) = .error .Truncated := by
  obtain ⟨t, v⟩ := f
  cases v with
  | varint v =>
    have hrep : encodeField (t, FieldVal.varint v) = varintEncode (t * 8) ++ varintEncode v :=
      rfl
    rw [hrep] at hk ⊢
    rw [List.take_append_eq_append_take]
    by_cases hkK : k < (varintEncode (t * 8)).length
    · have h0 : k - (varintEncode (t * 8)).length = 0 := by omega
      rw [h0, List.take_zero, List.append_nil]
      simp [readField, varintDecode_take_varintEncode _ _ hkK]
    · have hK : (varintEncode (t * 8)).take k = varintEncode (t * 8) :=
        List.take_of_length_le (by omega)
      rw [hK]
      have hmod : t * 8 % 8 = 0 := by omega
      have hj : k - (varintEncode (t * 8)).length < (varintEncode v).length := by
        simp only [List.length_append] at hk
        omega
      simp [readField, varintDecode_varintEncode, hmod,
        varintDecode_take_varintEncode _ _ hj]
  | bytes p =>
    have hrep : encodeField (t, FieldVal.bytes p) =
        varintEncode (t * 8 + 2) ++ (varintEncode p.length ++ p) := by
      simp [encodeField]
    rw [hrep] at hk ⊢
    rw [List.take_append_eq_append_take]
    by_cases hkK : k < (varintEncode (t * 8 + 2)).length
    · have h0 : k - (varintEncode (t * 8 + 2)).length = 0 := by omega
      rw [h0, List.take_zero, List.append_nil]
      simp [readField, varintDecode_take_varintEncode _ _ hkK]
    · have hK : (varintEncode (t * 8 + 2)).take k = varintEncode (t * 8 + 2) :=
        List.take_of_length_le (by omega)
      rw [hK]
      have hmod : (t * 8 + 2) % 8 = 2 := by omega
      have hmod0 : ¬ (t * 8 + 2) % 8 = 0 := by omega
      set j := k - (varintEncode (t * 8 + 2)).length with hjdef
      have hjlt : j < (varintEncode p.length).length + p.length := by
        simp only [List.length_append] at hk
        omega
      rw [List.take_append_eq_append_take]
      by_cases hjL : j < (varintEncode p.length).length
      · have h0 : j - (varintEncode p.length).length = 0 := by omega
        rw [h0, List.take_zero, List.append_nil]
        simp [readField, varintDecode_varintEncode, hmod, hmod0,
          varintDecode_take_varintEncode _ _ hjL]
      · have hL : (varintEncode p.length).take j = varintEncode p.length :=
          List.take_of_length_le (by omega)
        rw [hL]
        set j2 := j - (varintEncode p.length).length with hj2def
        have hj2lt : j2 < p.length := by omega
        have hlen2 : (p.take j2).length = j2 := by
          rw [List.length_take]
          omega
        have hnle : ¬ p.length ≤ j2 := by omega
        simp [readField, varintDecode_varintEncode, hmod, hmod0, hlen2, hnle]

theorem encodeFields_cons (f : Nat × FieldVal) (fs : List (Nat × FieldVal)) :
    encodeFields (f :: fs) = encodeField f ++ encodeFields fs := by
  simp [encodeFields]

theorem parseFields_take (fs : List (Nat × FieldVal)) :
    ∀ fuel k, k < (encodeFields fs).length → k ≤ fuel →
      parseFields fuel ((encodeFields fs).take k) = .error .Truncated ∨
        ∃ fs1 fs2, fs = fs1 ++ fs2 ∧ fs2 ≠ [] ∧
          parseFields fuel ((encodeFields fs).take k) = .ok fs1 := by
  induction fs with
  | nil =>
    intro fuel k h _
    simp [encodeFields] at h
  | cons f tl ih =>
    intro fuel k h hfuel
    rw [encodeFields_cons] at h ⊢
    have hEpos : 0 < (encodeField f).length :=
      List.length_pos.mpr (encodeField_ne_nil f)
    cases Nat.eq_zero_or_pos k with
    | inl hk0 =>
      subst hk0
      right
      exact ⟨[], f :: tl, rfl, by simp, by simp [parseFields]⟩
    | inr hkpos =>
      rw [List.take_append_eq_append_take]
      by_cases hkE : k < (encodeField f).length
      · have h0 : k - (encodeField f).length = 0 := by omega
        rw [h0, List.take_zero, List.append_nil]
        left
        have hne : (encodeField f).take k ≠ [] := by
          intro hcon
          have := congrArg List.length hcon
          simp only [List.length_take, List.length_nil] at this
          omega
        cases fuel with
        | zero => exact parseFields_zero _ hne
        | succ g =>
          rw [parseFields_succ g _ hne, readField_take f k hkpos hkE]
      · have hE : (encodeField f).take k = encodeField f :=
          List.take_of_length_le (by omega)
        rw [hE]
        set j := k - (encodeField f).length with hjdef
        by_cases hj0 : j = 0
        · -- the prefix ends exactly at the field boundary
          rw [hj0, List.take_zero, List.append_nil]
          have htlne : tl ≠ [] := by
            intro hcon
            subst hcon
            simp only [encodeFields, List.map_nil, List.flatten_nil, List.length_append,
              List.length_nil] at h
            omega
          cases fuel with
          | zero =>
            left
            exact parseFields_zero _ (fun hcon => (encodeField_ne_nil f) hcon)
          | succ g =>
            right
            refine ⟨[f], tl, rfl, htlne, ?_⟩
            have hE2 : encodeField f = encodeField f ++ [] := by simp
            rw [parseFields_succ g _ (encodeField_ne_nil f), hE2,
              readField_encodeField f []]
            simp [parseFields]
        · -- the prefix reaches into the remaining fields
          have hjpos : 0 < j := Nat.pos_of_ne_zero hj0
          have hjlt : j < (encodeFields tl).length := by
            simp only [List.length_append] at h
            omega
          cases fuel with
          | zero => omega
          | succ g =>
            have hjg : j ≤ g := by omega
            have hne : encodeField f ++ (encodeFields tl).take j ≠ [] := by
              intro hcon
              exact (encodeField_ne_nil f) (List.append_eq_nil.mp hcon).1
            rw [parseFields_succ g _ hne, readField_encodeField f ((encodeFields tl).take j)]
            rcases ih g j hjlt hjg with hleft | ⟨fs1, fs2, heq, hfs2, hok⟩
            · left
              simp [hleft]
            · right
              refine ⟨f :: fs1, fs2, ?_, hfs2, ?_⟩
              · rw [heq]
                rfl
              · simp [hok]

/-- C4 counterexample: the empty stream is a strict prefix of the valid
encoding of `Response {messages: [], log: Some "x", data: None}`, yet
decoding it succeeds with a default `Response` instead of failing with
`Truncated` or `Malformed`. -/
theorem C4_counterexample :
    0 < (encodeResponse ⟨[], some "x", none⟩).length ∧
    (encodeResponse ⟨[], some "x", none⟩).take 0 = [] ∧
    decodeResponse ((encodeResponse ⟨[], some "x", none⟩).take 0) = .ok ⟨[], none, none⟩ := by
  decide

/-- C4 as amended: decoding is total (never panics), and for `Params` —
whose top-level fields are all required — every strict prefix of a valid
encoding fails with a decode error (`Truncated` mid-field, `MissingField` at
a field boundary), though for a message with only optional and repeated
fields, such as `Response`, a strict prefix at a field boundary can decode
successfully, so failure specifically with `Truncated`/`Malformed` on every
prefix does not hold. -/
theorem C4_truncation_rejected (p : Params) (k : Nat) (hk : k < (encodeParams p).length) :
    ∃ e, decodeParams ((encodeParams p).take k) = .error e := by
  have hfs : encodeParams p = encodeFields (fieldsOfParams p) := rfl
  rw [hfs] at hk ⊢
  have hlen : ((encodeFields (fieldsOfParams p)).take k).length = k := by
    rw [List.length_take]
    omega
  rcases parseFields_take (fieldsOfParams p) k k hk (Nat.le_refl k) with
    hTr | ⟨fs1, fs2, heq, hfs2, hok⟩
  · exact ⟨.Truncated, by simp [decodeParams, hlen, hTr]⟩
  · rcases fs1 with _ | ⟨x, _ | ⟨y, _ | ⟨z, rest⟩⟩⟩
    · exact ⟨.MissingField, by simp [decodeParams, hlen, hok, decodeParamsFields, foldFields]⟩
    · simp only [fieldsOfParams, List.cons_append, List.nil_append] at heq
      obtain ⟨h1, h2⟩ := List.cons.inj heq
      subst h1
      exact ⟨.MissingField, by simp [decodeParams, hlen, hok, decodeParamsFields, foldFields,
        paramsStep, decodeBlockInfo_encodeBlockInfo]⟩
    · simp only [fieldsOfParams, List.cons_append, List.nil_append] at heq
      obtain ⟨h1, heq2⟩ := List.cons.inj heq
      obtain ⟨h2, h3⟩ := List.cons.inj heq2
      subst h1
      subst h2
      exact ⟨.MissingField, by simp [decodeParams, hlen, hok, decodeParamsFields, foldFields,
        paramsStep, decodeBlockInfo_encodeBlockInfo, decodeMessageInfo_encodeMessageInfo]⟩
    · exfalso
      have hl := congrArg List.length heq
      simp only [fieldsOfParams, List.length_cons, List.length_append, List.length_nil] at hl
      have hzero : fs2.length = 0 := by omega
      exact hfs2 (List.length_eq_zero.mp hzero)

/-- Witness for C4 as amended: a two-byte strict prefix of a concrete
`Params` encoding fails to decode. -/
theorem C4_truncation_rejected_witness :
    2 < (encodeParams (mock_params "" [] [])).length ∧
      ∃ e, decodeParams ((encodeParams (mock_params "" [] [])).take 2) = .error e :=
  ⟨by decide, C4_truncation_rejected (mock_params "" [] []) 2 (by decide)⟩
